import Mathlib

/-!
Shallow embedding of the subscription-payments core:
* `src/graph-subscriptions-rs/src/subscription_tier.rs` — the rate-tier lookup table
  (`SubscriptionTiers::new`, `tier_for_rate`, `find_next_tier`);
* `src/graph-subscriptions-api/src/network_subgraph.rs` — the directory cache
  (`parse_deployment_subgraphs`, `parse_subgraphs`, `poll_subgraphs`, and the read
  operations `deployment_subgraphs` / `subgraph`).

Machine integers (`u128`, `u32`, `u64`) appear only as sort keys and comparison
operands — the code performs no arithmetic on them — so they are embedded as `Nat`.
Rust's `HashMap` is embedded as an association list (`HMap`) whose `insert`
replaces the value of an existing key in place; built via `FromIterator`-style
`collect` (`hmapOfList`), it yields last-write-wins per key, exactly like
`HashMap::from_iter`.  Iteration order of a real `HashMap` is arbitrary; the only
place the code iterates one (the inner maps flattened inside `parse_subgraphs`)
feeds a second `collect`, whose per-key result is independent of the order in
which *distinct* keys arrive, so the deterministic entry order of `HMap` is
observationally faithful for every `get?`-level property proved below.
-/

/-- Tier of the subscription contract, from `subscription_tier.rs`.
`payment_rate : u128`, `queries_per_minute : u32`, `monthly_query_limit : Option<u64>`. -/
structure SubscriptionTier where
  payment_rate : Nat
  queries_per_minute : Nat
  monthly_query_limit : Option Nat
deriving DecidableEq, Repr

/-- Rust `#[derive(Default)]` for `SubscriptionTier`: every numeric field 0, option `None`. -/
def defaultTier : SubscriptionTier :=
  { payment_rate := 0, queries_per_minute := 0, monthly_query_limit := none }

/-- Newtype `SubscriptionTiers(Vec<SubscriptionTier>)`. -/
structure SubscriptionTiers where
  tiers : List SubscriptionTier
deriving DecidableEq, Repr

/-- Insertion step of a stable sort by `payment_rate`: walk past strictly smaller
rates, settle before the first tier whose rate is not smaller, so an inserted tier
precedes already-placed tiers of equal rate. -/
def insertByRate (t : SubscriptionTier) : List SubscriptionTier → List SubscriptionTier
  | [] => [t]
  | a :: rest =>
    if a.payment_rate < t.payment_rate then a :: insertByRate t rest else t :: a :: rest

/-- Stable ascending sort by `payment_rate`.  Rust's `sort_by_key` is a stable sort,
and every stable sort produces the same list, so this structurally-recursive
insertion sort is the embedding of `tiers.sort_by_key(|t| t.payment_rate)`. -/
def sortByRate : List SubscriptionTier → List SubscriptionTier
  | [] => []
  | t :: rest => insertByRate t (sortByRate rest)

/-- Embeds `SubscriptionTiers::new`: `tiers.sort_by_key(|t| t.payment_rate)` — a stable
ascending sort by `payment_rate` — then wrap. -/
def SubscriptionTiers.new (tiers : List SubscriptionTier) : SubscriptionTiers :=
  ⟨sortByRate tiers⟩

/-- Embeds `SubscriptionTiers::tier_for_rate`:
`self.0.iter().find(|tier| tier.payment_rate <= sub_rate).cloned().unwrap_or_default()`. -/
def SubscriptionTiers.tier_for_rate (ts : SubscriptionTiers) (sub_rate : Nat) : SubscriptionTier :=
  (ts.tiers.find? (fun tier => tier.payment_rate ≤ sub_rate)).getD defaultTier

/-- Embeds `SubscriptionTiers::find_next_tier`:
`self.0.iter().find(|tier| tier.payment_rate > sub_rate).cloned()`. -/
def SubscriptionTiers.find_next_tier (ts : SubscriptionTiers) (sub_rate : Nat) :
    Option SubscriptionTier :=
  ts.tiers.find? (fun tier => sub_rate < tier.payment_rate)

/-- Opaque fixed-length account address (`toolshed::bytes::Address`). -/
structure Address where
  val : Nat
deriving DecidableEq, Repr

/-- Opaque content-hash deployment identifier (`toolshed::bytes::DeploymentId`). -/
structure DeploymentId where
  val : Nat
deriving DecidableEq, Repr

/-- Opaque subgraph identifier (`toolshed::bytes::SubgraphId`). -/
structure SubgraphId where
  val : Nat
deriving DecidableEq, Repr

/-- Embeds `GraphAccount` from `network_subgraph.rs`. -/
structure GraphAccount where
  id : Address
  image : Option String
  default_display_name : Option String
deriving DecidableEq, Repr

/-- Embeds `Subgraph` from `network_subgraph.rs`. -/
structure Subgraph where
  id : SubgraphId
  owner : GraphAccount
  display_name : Option String
  image : Option String
deriving DecidableEq, Repr

/-- Embeds `SubgraphVersion`: one version wraps one `Subgraph`. -/
structure SubgraphVersion where
  subgraph : Subgraph
deriving DecidableEq, Repr

/-- Embeds the raw record `SubgraphDeployment { id: DeploymentId, versions: Vec<SubgraphVersion> }`. -/
structure SubgraphDeployment where
  id : DeploymentId
  versions : List SubgraphVersion
deriving DecidableEq, Repr

/-- Model of Rust's `std::collections::HashMap` as an association list with unique keys.
Only its key-to-value behaviour (`insert` overwrites, `get?` looks up) is relied upon. -/
structure HMap (K V : Type) where
  entries : List (K × V)
deriving DecidableEq, Repr

/-- Insertion into the entry list of an `HMap`: replace in place if the key is
present (as `HashMap::insert` overwrites the value), otherwise append. -/
def insertEntry {K V : Type} [DecidableEq K] (k : K) (v : V) : List (K × V) → List (K × V)
  | [] => [(k, v)]
  | p :: rest => if p.1 = k then (k, v) :: rest else p :: insertEntry k v rest

/-- Lookup in the entry list of an `HMap` (`HashMap::get`). -/
def getEntry? {K V : Type} [DecidableEq K] (k : K) : List (K × V) → Option V
  | [] => none
  | p :: rest => if p.1 = k then some p.2 else getEntry? k rest

/-- Embeds `HashMap::insert`. -/
def HMap.insert {K V : Type} [DecidableEq K] (m : HMap K V) (k : K) (v : V) : HMap K V :=
  ⟨insertEntry k v m.entries⟩

/-- Embeds `HashMap::get` (cloning is identity here). -/
def HMap.get? {K V : Type} [DecidableEq K] (m : HMap K V) (k : K) : Option V :=
  getEntry? k m.entries

/-- Embeds `Iterator::collect::<HashMap<_, _>>()`: insert every yielded pair in
iteration order into an empty map, so the last write to a key wins. -/
def hmapOfList {K V : Type} [DecidableEq K] (l : List (K × V)) : HMap K V :=
  l.foldl (fun m p => m.insert p.1 p.2) ⟨[]⟩

/-- Embeds the `Subgraph` value built field by field inside both parse functions:
every `Option<String>` field goes through `.as_ref().map(|val| val.to_string())`
(identity on the carried string), `id`s are `Copy`. -/
def cloneSubgraph (s : Subgraph) : Subgraph :=
  { id := s.id
    owner :=
      { id := s.owner.id
        image := s.owner.image.map (fun val => val)
        default_display_name := s.owner.default_display_name.map (fun val => val) }
    display_name := s.display_name.map (fun val => val)
    image := s.image.map (fun val => val) }

/-- Sequence of `Subgraph`s built from one raw record's versions, in version order. -/
def subgraphsOf (deployment : SubgraphDeployment) : List Subgraph :=
  deployment.versions.map (fun version => cloneSubgraph version.subgraph)

/-- Embeds `parse_deployment_subgraphs`: map each raw record to the pair
`(deployment.id, subgraphs of its versions)` and `collect` into a `HashMap`. -/
def parse_deployment_subgraphs (subgraph_deployment_response : List SubgraphDeployment) :
    HMap DeploymentId (List Subgraph) :=
  hmapOfList (subgraph_deployment_response.map
    (fun deployment => (deployment.id, subgraphsOf deployment)))

/-- Embeds `parse_subgraphs`: per record, `collect` the pairs `(subgraph.id, subgraph)`
of its versions into an inner `HashMap`; then `flatten` the inner maps' entries and
`collect` into the outer `HashMap`. -/
def parse_subgraphs (subgraph_deployment_response : List SubgraphDeployment) :
    HMap SubgraphId Subgraph :=
  hmapOfList ((subgraph_deployment_response.map
    (fun deployment =>
      (hmapOfList (deployment.versions.map
        (fun version =>
          ((cloneSubgraph version.subgraph).id, cloneSubgraph version.subgraph)))).entries)).flatten)

/-- Flattened sequence of all `Subgraph`s of a response, record-major and in version
order within a record: the iteration order in which the parse functions encounter them. -/
def flatSubgraphs (subgraph_deployment_response : List SubgraphDeployment) : List Subgraph :=
  (subgraph_deployment_response.map subgraphsOf).flatten

/-- Embeds `SubgraphDeploymentInputs`: the two derived maps of one published snapshot. -/
structure SubgraphDeploymentInputs where
  deployment_to_subgraphs : HMap DeploymentId (List Subgraph)
  subgraph_id_to_subgraph : HMap SubgraphId Subgraph
deriving DecidableEq, Repr

/-- State of the snapshot sink (the `Eventual`): `none` while no value is obtainable
(the `Err(_)` branch of `inputs.value().await`), `some` the latest published inputs. -/
structure SinkState where
  latest : Option SubgraphDeploymentInputs
deriving DecidableEq, Repr

/-- Embeds `SubgraphDeployments::deployment_subgraphs`: on an unobtainable snapshot
return `vec![]`; otherwise `get(deployment).cloned().unwrap_or_default()`. -/
def deployment_subgraphs (sink : SinkState) (deployment : DeploymentId) : List Subgraph :=
  match sink.latest with
  | none => []
  | some map => (map.deployment_to_subgraphs.get? deployment).getD []

/-- Embeds `SubgraphDeployments::subgraph`: on an unobtainable snapshot return `None`;
otherwise `get(subgraph_id).cloned()`. -/
def subgraph (sink : SinkState) (subgraph_id : SubgraphId) : Option Subgraph :=
  match sink.latest with
  | none => none
  | some map => map.subgraph_id_to_subgraph.get? subgraph_id

/-- Embeds `Client::poll_subgraphs` as a state transformer on the sink.  The paginated
fetch is external (`subgraph_client::paginated_query`), so its outcome is the input:
`?` propagates a transport error; an empty page set aborts with the literal error
string and no write; otherwise both maps are built from the same response and written. -/
def poll_subgraphs (fetched : Except String (List SubgraphDeployment)) (sink : SinkState) :
    SinkState × Except String Unit :=
  match fetched with
  | .error e => (sink, .error e)
  | .ok response =>
    if response.isEmpty then
      (sink, .error "Discarding empty update (subgraph_deployments)")
    else
      (⟨some { deployment_to_subgraphs := parse_deployment_subgraphs response
               subgraph_id_to_subgraph := parse_subgraphs response }⟩,
       .ok ())

/-- Concrete tier list of the spec's worked example: rates 0 and 100. -/
def exTiers : List SubscriptionTier :=
  [{ payment_rate := 0, queries_per_minute := 10, monthly_query_limit := none },
   { payment_rate := 100, queries_per_minute := 1000, monthly_query_limit := none }]

/-- Concrete publishing account used by the worked page-set examples. -/
def exAcct : GraphAccount := { id := ⟨1⟩, image := none, default_display_name := none }

/-- Concrete subgraph with id 1. -/
def exSub1 : Subgraph := { id := ⟨1⟩, owner := exAcct, display_name := none, image := none }

/-- Concrete subgraph with id 2. -/
def exSub2 : Subgraph := { id := ⟨2⟩, owner := exAcct, display_name := none, image := none }

/-- Raw record: deployment 7 carrying subgraph 1. -/
def exRec1 : SubgraphDeployment := { id := ⟨7⟩, versions := [⟨exSub1⟩] }

/-- Raw record: the same deployment 7, carrying subgraph 2. -/
def exRec2 : SubgraphDeployment := { id := ⟨7⟩, versions := [⟨exSub2⟩] }

/-- Raw record: deployment 8 carrying subgraph 2 (distinct DeploymentId). -/
def exRec3 : SubgraphDeployment := { id := ⟨8⟩, versions := [⟨exSub2⟩] }

/-- Raw record: deployment 7 with an empty versions list. -/
def exRecEmpty : SubgraphDeployment := { id := ⟨7⟩, versions := [] }

/-- Raw record: deployment 8 with an empty versions list. -/
def exRecEmpty8 : SubgraphDeployment := { id := ⟨8⟩, versions := [] }

/-- Page set with two records sharing DeploymentId 7. -/
def exRespDup : List SubgraphDeployment := [exRec1, exRec2]

/-- Page set with pairwise-distinct DeploymentIds. -/
def exRespDistinct : List SubgraphDeployment := [exRec1, exRec3]

/-- Page set where the empty-versions record for deployment 7 is followed by a
non-empty record for the same deployment. -/
def exRespEmptyDup : List SubgraphDeployment := [exRecEmpty, exRec2]

/-- Page set with distinct DeploymentIds, one record having no versions. -/
def exRespEmptyDistinct : List SubgraphDeployment := [exRec1, exRecEmpty8]

/-- Concrete snapshot inputs built from the one-record page set `[exRec1]`. -/
def exInputs : SubgraphDeploymentInputs :=
  { deployment_to_subgraphs := parse_deployment_subgraphs [exRec1]
    subgraph_id_to_subgraph := parse_subgraphs [exRec1] }

/-- Concrete sink state holding `exInputs`. -/
def exSink : SinkState := ⟨some exInputs⟩

/-- Sink state holding exactly the snapshot a successful poll over `resp` writes
(the `Ptr::new(SubgraphDeploymentInputs { .. })` written by `poll_subgraphs`). -/
def snapshotOf (resp : List SubgraphDeployment) : SinkState :=
  ⟨some { deployment_to_subgraphs := parse_deployment_subgraphs resp
          subgraph_id_to_subgraph := parse_subgraphs resp }⟩

/-- One-tier list whose only payment rate is positive. -/
def exTiersPos : List SubscriptionTier :=
  [{ payment_rate := 5, queries_per_minute := 10, monthly_query_limit := none }]

/-- Second concrete publishing account. -/
def exAcct2 : GraphAccount := { id := ⟨2⟩, image := none, default_display_name := none }

/-- Concrete subgraph sharing id 1 with `exSub1` but owned by a different account. -/
def exSub1b : Subgraph := { id := ⟨1⟩, owner := exAcct2, display_name := none, image := none }

/-- Raw record: deployment 8 carrying the second subgraph with id 1. -/
def exRec4 : SubgraphDeployment := { id := ⟨8⟩, versions := [⟨exSub1b⟩] }

/-- Page set in which SubgraphId 1 occurs in two different records. -/
def exRespDupSub : List SubgraphDeployment := [exRec1, exRec4]

/-! Helper lemmas about the `HMap` model. -/

/-- Lookup after in-place insertion: the inserted key reads back the new value,
every other key is untouched. -/
theorem getEntry?_insertEntry {K V : Type} [DecidableEq K] (k k' : K) (v' : V)
    (l : List (K × V)) :
    getEntry? k (insertEntry k' v' l) = if k = k' then some v' else getEntry? k l := by
  induction l with
  | nil =>
    by_cases h : k = k'
    · subst h; simp [insertEntry, getEntry?]
    · simp [insertEntry, getEntry?, h, Ne.symm h]
  | cons p rest ih =>
    by_cases hp : p.1 = k'
    · by_cases h : k = k'
      · subst h; simp [insertEntry, getEntry?, hp]
      · simp [insertEntry, getEntry?, hp, h, Ne.symm h]
    · by_cases hq : p.1 = k
      · have hkk : k ≠ k' := by rw [← hq]; exact hp
        simp [insertEntry, getEntry?, hp, hq, hkk]
      · simp [insertEntry, getEntry?, hp, hq, ih]

/-- Lookup in an entry list is `find?` on the key, projected to the value. -/
theorem getEntry?_eq_find? {K V : Type} [DecidableEq K] (k : K) (l : List (K × V)) :
    getEntry? k l = (l.find? (fun p => p.1 = k)).map Prod.snd := by
  induction l with
  | nil => rfl
  | cons p rest ih =>
    by_cases h : p.1 = k <;> simp [getEntry?, List.find?_cons, h, ih]

/-- Folding `insert` over a pair list: the last write to a key wins, falling back
to the initial map. -/
theorem get?_foldl_insert {K V : Type} [DecidableEq K] (l : List (K × V)) (m : HMap K V)
    (k : K) :
    ((l.foldl (fun m p => m.insert p.1 p.2) m).get? k)
      = ((l.reverse.find? (fun p => p.1 = k)).map Prod.snd).or (m.get? k) := by
  induction l generalizing m with
  | nil => simp
  | cons p rest ih =>
    rw [List.foldl_cons, ih, List.reverse_cons, List.find?_append]
    cases hf : rest.reverse.find? (fun p => p.1 = k) with
    | some q => simp [hf]
    | none =>
      have hins : (m.insert p.1 p.2).get? k = if k = p.1 then some p.2 else m.get? k := by
        rw [HMap.get?, HMap.insert, getEntry?_insertEntry]; rfl
      by_cases h : p.1 = k
      · rw [hins]
        simp [hf, h, List.find?_cons]
      · have h' : k ≠ p.1 := fun hh => h hh.symm
        rw [hins]
        simp [hf, h, h', List.find?_cons]

/-- Lookup in a collected map: the value of the last pair with the queried key. -/
theorem get?_hmapOfList {K V : Type} [DecidableEq K] (l : List (K × V)) (k : K) :
    (hmapOfList l).get? k = (l.reverse.find? (fun p => p.1 = k)).map Prod.snd := by
  rw [hmapOfList, get?_foldl_insert]
  simp [HMap.get?, getEntry?]

/-- Collecting an appended pair list: the second part shadows the first per key. -/
theorem get?_hmapOfList_append {K V : Type} [DecidableEq K] (l1 l2 : List (K × V)) (k : K) :
    (hmapOfList (l1 ++ l2)).get? k = ((hmapOfList l2).get? k).or ((hmapOfList l1).get? k) := by
  rw [get?_hmapOfList, get?_hmapOfList, get?_hmapOfList, List.reverse_append,
    List.find?_append]
  cases hf : l2.reverse.find? (fun p => p.1 = k) <;> simp [hf]

/-- Key membership after an in-place insertion. -/
theorem mem_keys_insertEntry {K V : Type} [DecidableEq K] (a k : K) (v : V)
    (l : List (K × V)) :
    (a ∈ (insertEntry k v l).map Prod.fst) ↔ a = k ∨ a ∈ l.map Prod.fst := by
  induction l with
  | nil => simp [insertEntry]
  | cons p rest ih =>
    by_cases h : p.1 = k <;> (simp [insertEntry, h, ih]; try tauto)

/-- In-place insertion preserves distinctness of keys. -/
theorem nodup_keys_insertEntry {K V : Type} [DecidableEq K] (k : K) (v : V)
    (l : List (K × V)) (hl : (l.map Prod.fst).Nodup) :
    ((insertEntry k v l).map Prod.fst).Nodup := by
  induction l with
  | nil => simp [insertEntry]
  | cons p rest ih =>
    rw [List.map_cons, List.nodup_cons] at hl
    by_cases h : p.1 = k
    · rw [insertEntry]
      simp only [h, if_pos]
      rw [List.map_cons, List.nodup_cons]
      exact ⟨by rw [← h]; exact hl.1, hl.2⟩
    · rw [insertEntry]
      simp only [h, if_neg, not_false_iff]
      rw [List.map_cons, List.nodup_cons]
      refine ⟨fun hmem => ?_, ih hl.2⟩
      rcases (mem_keys_insertEntry p.1 k v rest).mp hmem with heq | hm
      · exact h heq
      · exact hl.1 hm

/-- Every map built by `collect` has pairwise-distinct keys. -/
theorem nodup_keys_hmapOfList {K V : Type} [DecidableEq K] (l : List (K × V)) :
    ((hmapOfList l).entries.map Prod.fst).Nodup := by
  suffices h : ∀ (l : List (K × V)) (m : HMap K V), (m.entries.map Prod.fst).Nodup →
      (((l.foldl (fun m p => m.insert p.1 p.2) m).entries).map Prod.fst).Nodup by
    exact h l ⟨[]⟩ (by simp)
  intro l
  induction l with
  | nil => intro m hm; exact hm
  | cons p rest ih =>
    intro m hm
    exact ih _ (nodup_keys_insertEntry p.1 p.2 m.entries hm)

/-- Searching a key in a list with distinct keys is order-independent. -/
theorem find?_reverse_eq_of_nodup_keys {K V : Type} [DecidableEq K] (l : List (K × V))
    (k : K) (hl : (l.map Prod.fst).Nodup) :
    l.reverse.find? (fun p => p.1 = k) = l.find? (fun p => p.1 = k) := by
  induction l with
  | nil => rfl
  | cons p rest ih =>
    rw [List.map_cons, List.nodup_cons] at hl
    rw [List.reverse_cons, List.find?_append]
    by_cases h : p.1 = k
    · have hnone : rest.find? (fun p => p.1 = k) = none := by
        rw [List.find?_eq_none]
        intro x hx hpx
        apply hl.1
        have hx1 : x.1 = k := of_decide_eq_true hpx
        have : p.1 = x.1 := by rw [h, hx1]
        rw [this]
        exact List.mem_map_of_mem Prod.fst hx
      have hrev : rest.reverse.find? (fun p => p.1 = k) = none := by
        rw [List.find?_eq_none] at hnone ⊢
        intro x hx
        exact hnone x (List.mem_reverse.mp hx)
      simp [hrev, hnone, List.find?_cons, h]
    · have h1 : List.find? (fun p => p.1 = k) [p] = none := by
        simp [List.find?_cons, h]
      rw [h1, Option.or_none, ih hl.2]
      simp [List.find?_cons, h]

/-- Re-collecting the entries of a collected map does not change any lookup. -/
theorem get?_hmapOfList_entries {K V : Type} [DecidableEq K] (l : List (K × V)) (k : K) :
    (hmapOfList ((hmapOfList l).entries)).get? k = (hmapOfList l).get? k := by
  rw [get?_hmapOfList,
    find?_reverse_eq_of_nodup_keys _ _ (nodup_keys_hmapOfList l),
    ← getEntry?_eq_find?]
  rfl

/-! Characterizations of the two parse functions. -/

/-- Finding a subgraph id among `(id, subgraph)` pairs is finding it among the
subgraphs themselves. -/
theorem find?_id_pairs (l : List Subgraph) (S : SubgraphId) :
    ((l.map (fun sg => (sg.id, sg))).find? (fun p => p.1 = S)).map Prod.snd
      = l.find? (fun sg => sg.id = S) := by
  rw [List.find?_map, Option.map_map]
  show Option.map (fun sg => sg) (l.find? (fun sg => decide (sg.id = S))) = _
  cases l.find? (fun sg => decide (sg.id = S)) <;> rfl

/-- Lookup in `parse_deployment_subgraphs`: the versions of the last raw record
carrying the queried DeploymentId (later records shadow earlier ones). -/
theorem parse_deployment_subgraphs_get? (resp : List SubgraphDeployment)
    (D : DeploymentId) :
    (parse_deployment_subgraphs resp).get? D
      = (resp.reverse.find? (fun d => d.id = D)).map subgraphsOf := by
  rw [parse_deployment_subgraphs, get?_hmapOfList, ← List.map_reverse, List.find?_map,
    Option.map_map]
  rfl

/-- Splitting off the first record of `flatSubgraphs`. -/
theorem flatSubgraphs_cons (d : SubgraphDeployment) (rest : List SubgraphDeployment) :
    flatSubgraphs (d :: rest) = subgraphsOf d ++ flatSubgraphs rest := by
  simp [flatSubgraphs]

/-- Lookup in `parse_subgraphs`: the last subgraph carrying the queried SubgraphId
in the full iteration order (records in page order, versions in version order) —
last write wins both across records and within a record. -/
theorem parse_subgraphs_get? (resp : List SubgraphDeployment) (S : SubgraphId) :
    (parse_subgraphs resp).get? S
      = (flatSubgraphs resp).reverse.find? (fun sg => sg.id = S) := by
  induction resp with
  | nil => rfl
  | cons d rest ih =>
    have hpairs :
        (d.versions.map (fun version =>
          ((cloneSubgraph version.subgraph).id, cloneSubgraph version.subgraph)))
          = (subgraphsOf d).map (fun sg => (sg.id, sg)) := by
      rw [subgraphsOf, List.map_map]
      rfl
    have hsplit :
        parse_subgraphs (d :: rest)
          = hmapOfList
              ((hmapOfList ((subgraphsOf d).map (fun sg => (sg.id, sg)))).entries
                ++ ((rest.map (fun deployment =>
                      (hmapOfList (deployment.versions.map (fun version =>
                        ((cloneSubgraph version.subgraph).id,
                         cloneSubgraph version.subgraph)))).entries)).flatten)) := by
      rw [parse_subgraphs, List.map_cons, List.flatten_cons, hpairs]
    rw [hsplit, get?_hmapOfList_append]
    have hrest :
        (hmapOfList ((rest.map (fun deployment =>
            (hmapOfList (deployment.versions.map (fun version =>
              ((cloneSubgraph version.subgraph).id,
               cloneSubgraph version.subgraph)))).entries)).flatten)).get? S
          = (parse_subgraphs rest).get? S := rfl
    rw [hrest, ih, get?_hmapOfList_entries, get?_hmapOfList, ← List.map_reverse,
      find?_id_pairs, flatSubgraphs_cons, List.reverse_append, List.find?_append]

/-- Membership with a satisfied predicate makes `find?` over the reverse succeed. -/
theorem find?_reverse_isSome_of_mem {α : Type} (p : α → Bool) (l : List α) (x : α)
    (hx : x ∈ l) (hp : p x = true) : (l.reverse.find? p).isSome = true := by
  rw [Option.isSome_iff_ne_none]
  intro hnone
  rw [List.find?_eq_none] at hnone
  exact absurd hp (hnone x (List.mem_reverse.mpr hx))

/-! Lemmas about the sorted tier list. -/

/-- Inserting into a list is, up to permutation, consing. -/
theorem perm_insertByRate (t : SubscriptionTier) (l : List SubscriptionTier) :
    (insertByRate t l).Perm (t :: l) := by
  induction l with
  | nil => exact List.Perm.refl _
  | cons a rest ih =>
    by_cases h : a.payment_rate < t.payment_rate
    · rw [insertByRate]
      simp only [h, if_pos]
      exact (ih.cons a).trans (List.Perm.swap t a rest)
    · rw [insertByRate]
      simp only [h, if_neg, not_false_iff]
      exact List.Perm.refl _

/-- Insertion preserves the ascending-by-rate invariant. -/
theorem pairwise_insertByRate (t : SubscriptionTier) (l : List SubscriptionTier)
    (hl : l.Pairwise (fun a b => a.payment_rate ≤ b.payment_rate)) :
    (insertByRate t l).Pairwise (fun a b => a.payment_rate ≤ b.payment_rate) := by
  induction l with
  | nil => simp [insertByRate]
  | cons a rest ih =>
    rw [List.pairwise_cons] at hl
    by_cases h : a.payment_rate < t.payment_rate
    · rw [insertByRate]
      simp only [h, if_pos]
      rw [List.pairwise_cons]
      refine ⟨?_, ih hl.2⟩
      intro b hb
      rcases List.mem_cons.mp ((perm_insertByRate t rest).mem_iff.mp hb) with hbt | hbm
      · rw [hbt]; exact le_of_lt h
      · exact hl.1 b hbm
    · rw [insertByRate]
      simp only [h, if_neg, not_false_iff]
      rw [List.pairwise_cons]
      refine ⟨?_, List.pairwise_cons.mpr hl⟩
      intro b hb
      rcases List.mem_cons.mp hb with rfl | hbm
      · exact le_of_not_lt h
      · exact le_trans (le_of_not_lt h) (hl.1 b hbm)

/-- Result of `SubscriptionTiers::new` is ascending in `payment_rate`. -/
theorem new_pairwise (tiers : List SubscriptionTier) :
    (SubscriptionTiers.new tiers).tiers.Pairwise
      (fun a b => a.payment_rate ≤ b.payment_rate) := by
  show (sortByRate tiers).Pairwise _
  induction tiers with
  | nil => exact List.Pairwise.nil
  | cons t rest ih => exact pairwise_insertByRate t (sortByRate rest) ih

/-- Result of `SubscriptionTiers::new` is a permutation of the input tier list. -/
theorem new_perm (tiers : List SubscriptionTier) :
    (SubscriptionTiers.new tiers).tiers.Perm tiers := by
  show (sortByRate tiers).Perm tiers
  induction tiers with
  | nil => exact List.Perm.refl _
  | cons t rest ih => exact (perm_insertByRate t (sortByRate rest)).trans (ih.cons t)

/-- On an ascending tier list, the first tier above a rate has the least
`payment_rate` among all tiers above that rate. -/
theorem find?_above_min (l : List SubscriptionTier) (r : Nat)
    (hl : l.Pairwise (fun a b => a.payment_rate ≤ b.payment_rate))
    (t : SubscriptionTier) (h : l.find? (fun tier => r < tier.payment_rate) = some t) :
    ∀ t' ∈ l, r < t'.payment_rate → t.payment_rate ≤ t'.payment_rate := by
  induction l with
  | nil => simp at h
  | cons a rest ih =>
    rw [List.pairwise_cons] at hl
    by_cases ha : r < a.payment_rate
    · have hta : t = a := by
        rw [List.find?_cons] at h
        simp [ha] at h
        exact h.symm
      subst hta
      intro t' ht' hrt'
      rcases List.mem_cons.mp ht' with rfl | hmem
      · exact le_refl _
      · exact hl.1 t' hmem
    · have hrest : rest.find? (fun tier => r < tier.payment_rate) = some t := by
        rw [List.find?_cons] at h
        simp [ha] at h
        exact h
      intro t' ht' hrt'
      rcases List.mem_cons.mp ht' with rfl | hmem
      · exact absurd hrt' ha
      · exact ih hl.2 hrest t' hmem hrt'

/-- On the sorted tier list, `tier_for_rate` is decided by the head alone: the head
if its rate qualifies, the default tier otherwise (every later rate is even larger). -/
theorem tier_for_rate_head (tiers : List SubscriptionTier) (r : Nat) :
    (SubscriptionTiers.new tiers).tier_for_rate r
      = match (SubscriptionTiers.new tiers).tiers with
        | [] => defaultTier
        | a :: _ => if a.payment_rate ≤ r then a else defaultTier := by
  have hl := new_pairwise tiers
  rw [SubscriptionTiers.tier_for_rate]
  cases hc : (SubscriptionTiers.new tiers).tiers with
  | nil => rfl
  | cons a rest =>
    rw [hc] at hl
    rw [List.pairwise_cons] at hl
    by_cases h : a.payment_rate ≤ r
    · simp [List.find?_cons, h]
    · have hnone : rest.find? (fun tier => tier.payment_rate ≤ r) = none := by
        rw [List.find?_eq_none]
        intro x hx hpx
        exact h (le_trans (hl.1 x hx) (of_decide_eq_true hpx))
      simp [List.find?_cons, h, hnone]

/-- Last element of a filtered list is the first match over the reversed list. -/
theorem getLast?_filter_eq_find?_reverse {α : Type} (p : α → Bool) (l : List α) :
    (l.filter p).getLast? = l.reverse.find? p := by
  induction l with
  | nil => rfl
  | cons a t ih =>
    rw [List.reverse_cons, List.find?_append, ← ih]
    by_cases h : p a = true
    · rw [List.filter_cons_of_pos h, List.getLast?_cons]
      cases hf : (t.filter p).getLast? <;> simp [hf, List.find?_cons, h]
    · rw [List.filter_cons_of_neg h]
      cases hf : (t.filter p).getLast? <;> simp [hf, List.find?_cons, h]

/-- Records with no id match produce no `find?` result. -/
theorem find?_id_eq_none (l : List SubgraphDeployment) (D : DeploymentId)
    (h : ∀ r ∈ l, r.id ≠ D) : l.find? (fun r => r.id = D) = none := by
  rw [List.find?_eq_none]
  intro x hx hpx
  exact h x hx (of_decide_eq_true hpx)

/-- When DeploymentIds are pairwise distinct, searching the reversed page set for a
member record's id returns exactly that record. -/
theorem find?_reverse_id_of_nodup (resp : List SubgraphDeployment)
    (hnodup : (resp.map SubgraphDeployment.id).Nodup) (d : SubgraphDeployment)
    (hd : d ∈ resp) :
    resp.reverse.find? (fun r => r.id = d.id) = some d := by
  have hsome : (resp.reverse.find? (fun r => r.id = d.id)).isSome = true :=
    find?_reverse_isSome_of_mem _ resp d hd (decide_eq_true rfl)
  obtain ⟨rr, hr⟩ := Option.isSome_iff_exists.mp hsome
  have hrid : rr.id = d.id :=
    of_decide_eq_true
      (@List.find?_some SubgraphDeployment (fun r => decide (r.id = d.id)) rr resp.reverse hr)
  have hrmem : rr ∈ resp :=
    List.mem_reverse.mp
      (@List.mem_of_find?_eq_some SubgraphDeployment (fun r => decide (r.id = d.id)) rr
        resp.reverse hr)
  have hrd : rr = d := List.inj_on_of_nodup_map hnodup hrmem hd hrid
  rw [hr, hrd]

/-- Every subgraph of a member record occurs in the flattened subgraph sequence. -/
theorem mem_flatSubgraphs (resp : List SubgraphDeployment) (d : SubgraphDeployment)
    (hd : d ∈ resp) (sg : Subgraph) (hsg : sg ∈ subgraphsOf d) :
    sg ∈ flatSubgraphs resp := by
  rw [flatSubgraphs]
  exact List.mem_flatten.mpr ⟨subgraphsOf d, List.mem_map_of_mem _ hd, hsg⟩

/-- Dropping a record with no versions from the page set leaves
`parse_subgraphs` unchanged: such a record contributes no entry. -/
theorem parse_subgraphs_drop_empty (pre post : List SubgraphDeployment)
    (r : SubgraphDeployment) (hv : r.versions = []) :
    parse_subgraphs (pre ++ r :: post) = parse_subgraphs (pre ++ post) := by
  rw [parse_subgraphs, parse_subgraphs, List.map_append, List.map_append, List.map_cons,
    List.flatten_append, List.flatten_append, List.flatten_cons, hv]
  rfl

/-! Claim theorems. -/

/-- C1 (code-bug evaluation): the claim says `tier_for_rate(r)` returns the HIGHEST
tier with `payment_rate ≤ r`.  On the tier list with rates 0 and 100, at rate 100
the rate-100 tier qualifies (`payment_rate ≤ 100`) and is the highest qualifying
tier, yet the code returns the rate-0 tier: `find` over the ascending-sorted list
stops at the FIRST (lowest) qualifying tier.  The code contradicts the claim. -/
theorem C1_tier_for_rate_returns_lowest :
    (SubscriptionTiers.new exTiers).tier_for_rate 100
        = { payment_rate := 0, queries_per_minute := 10, monthly_query_limit := none }
    ∧ ({ payment_rate := 100, queries_per_minute := 1000, monthly_query_limit := none }
        : SubscriptionTier) ∈ exTiers
    ∧ ({ payment_rate := 100, queries_per_minute := 1000, monthly_query_limit := none }
        : SubscriptionTier).payment_rate ≤ 100
    ∧ (SubscriptionTiers.new exTiers).tier_for_rate 100
        ≠ { payment_rate := 100, queries_per_minute := 1000, monthly_query_limit := none } := by
  refine ⟨by decide, by decide, by decide, by decide⟩

/-- C5: `find_next_tier(r)` returns a tier above `r` that is lowest among all tiers
of the list above `r`, and returns `none` exactly when no tier rate exceeds `r`
(in particular when `r` is at or above the highest rate); on the example tiers with
rates 0 and 100, `find_next_tier(50)` is the rate-100 tier and `find_next_tier(100)`
is `none`. -/
theorem C5_find_next_tier_lowest_above (tiers : List SubscriptionTier) (r : Nat) :
    (∀ t, (SubscriptionTiers.new tiers).find_next_tier r = some t →
        r < t.payment_rate ∧
          ∀ t' ∈ tiers, r < t'.payment_rate → t.payment_rate ≤ t'.payment_rate)
    ∧ ((SubscriptionTiers.new tiers).find_next_tier r = none ↔
        ∀ t ∈ tiers, t.payment_rate ≤ r)
    ∧ (SubscriptionTiers.new exTiers).find_next_tier 50
        = some { payment_rate := 100, queries_per_minute := 1000, monthly_query_limit := none }
    ∧ (SubscriptionTiers.new exTiers).find_next_tier 100 = none := by
  refine ⟨?_, ?_, by decide, by decide⟩
  · intro t h
    rw [SubscriptionTiers.find_next_tier] at h
    have hpt :=
      @List.find?_some SubscriptionTier (fun tier => decide (r < tier.payment_rate)) t
        (SubscriptionTiers.new tiers).tiers h
    refine ⟨of_decide_eq_true hpt, ?_⟩
    intro t' ht' hrt'
    exact find?_above_min _ r (new_pairwise tiers) t h t'
      (((new_perm tiers).mem_iff).mpr ht') hrt'
  · rw [SubscriptionTiers.find_next_tier, List.find?_eq_none]
    constructor
    · intro h t ht
      have ht2 := h t (((new_perm tiers).mem_iff).mpr ht)
      simpa using ht2
    · intro h t ht
      have ht2 := h t (((new_perm tiers).mem_iff).mp ht)
      simpa using ht2

/-- C5 witness: at the example tier list, the rate-100 tier returned for rate 50 is
above 50 and minimal among tiers above 50; and `find_next_tier(100)` is `none`. -/
theorem C5_witness :
    (50 < ({ payment_rate := 100, queries_per_minute := 1000, monthly_query_limit := none }
        : SubscriptionTier).payment_rate
      ∧ ∀ t' ∈ exTiers, 50 < t'.payment_rate →
          ({ payment_rate := 100, queries_per_minute := 1000, monthly_query_limit := none }
            : SubscriptionTier).payment_rate ≤ t'.payment_rate)
    ∧ (SubscriptionTiers.new exTiers).find_next_tier 100 = none :=
  ⟨(C5_find_next_tier_lowest_above exTiers 50).1
      { payment_rate := 100, queries_per_minute := 1000, monthly_query_limit := none }
      (by decide),
    (C5_find_next_tier_lowest_above exTiers 100).2.2.2⟩

/-- C6: `tier_for_rate` is monotonic non-decreasing in the rate — the returned
tier's payment rate and query capacity never decrease as the rate grows — and when
every defined `payment_rate` is positive, `tier_for_rate(0)` is the default tier. -/
theorem C6_tier_for_rate_monotone (tiers : List SubscriptionTier) (r1 r2 : Nat)
    (h12 : r1 ≤ r2) :
    ((SubscriptionTiers.new tiers).tier_for_rate r1).payment_rate
        ≤ ((SubscriptionTiers.new tiers).tier_for_rate r2).payment_rate
    ∧ ((SubscriptionTiers.new tiers).tier_for_rate r1).queries_per_minute
        ≤ ((SubscriptionTiers.new tiers).tier_for_rate r2).queries_per_minute
    ∧ ((∀ t ∈ tiers, 0 < t.payment_rate) →
        (SubscriptionTiers.new tiers).tier_for_rate 0 = defaultTier) := by
  rw [tier_for_rate_head tiers r1, tier_for_rate_head tiers r2, tier_for_rate_head tiers 0]
  cases hc : (SubscriptionTiers.new tiers).tiers with
  | nil => exact ⟨le_refl _, le_refl _, fun _ => rfl⟩
  | cons a rest =>
    refine ⟨?_, ?_, ?_⟩
    · by_cases h1 : a.payment_rate ≤ r1
      · simp [h1, le_trans h1 h12]
      · simp only [h1, if_neg, not_false_iff]
        exact Nat.zero_le _
    · by_cases h1 : a.payment_rate ≤ r1
      · simp [h1, le_trans h1 h12]
      · simp only [h1, if_neg, not_false_iff]
        exact Nat.zero_le _
    · intro hpos
      have hamem : a ∈ tiers := by
        refine ((new_perm tiers).mem_iff).mp ?_
        rw [hc]
        exact List.mem_cons_self a rest
      have : ¬ a.payment_rate ≤ 0 := by
        have := hpos a hamem
        omega
      simp [this]

/-- C6 witness: on the one-tier list with rate 5, the tier returned at rate 2 is
not above the tier returned at rate 7, and `tier_for_rate(0)` is the default. -/
theorem C6_witness :
    ((SubscriptionTiers.new exTiersPos).tier_for_rate 2).payment_rate
        ≤ ((SubscriptionTiers.new exTiersPos).tier_for_rate 7).payment_rate
    ∧ (SubscriptionTiers.new exTiersPos).tier_for_rate 0 = defaultTier :=
  ⟨(C6_tier_for_rate_monotone exTiersPos 2 7 (by decide)).1,
    (C6_tier_for_rate_monotone exTiersPos 2 7 (by decide)).2.2 (by decide)⟩

/-- C3: an empty aggregated page set makes `poll_subgraphs` abort the cycle: the
sink keeps the previously published snapshot (every read observes exactly what it
observed before), nothing is written, and the caller receives the
"Discarding empty update" error. -/
theorem C3_empty_update_discarded (sink : SinkState)
    (response : List SubgraphDeployment) (hempty : response = []) :
    (poll_subgraphs (.ok response) sink).1 = sink
    ∧ (poll_subgraphs (.ok response) sink).2
        = .error "Discarding empty update (subgraph_deployments)"
    ∧ (∀ d, deployment_subgraphs (poll_subgraphs (.ok response) sink).1 d
        = deployment_subgraphs sink d)
    ∧ (∀ s, subgraph (poll_subgraphs (.ok response) sink).1 s = subgraph sink s) := by
  subst hempty
  exact ⟨rfl, rfl, fun _ => rfl, fun _ => rfl⟩

/-- C3 witness: polling an empty page set over the example sink returns the
"Discarding empty update" error and leaves the sink unchanged. -/
theorem C3_witness :
    (poll_subgraphs (.ok []) exSink).1 = exSink
    ∧ (poll_subgraphs (.ok []) exSink).2
        = .error "Discarding empty update (subgraph_deployments)" :=
  ⟨(C3_empty_update_discarded exSink [] rfl).1,
    (C3_empty_update_discarded exSink [] rfl).2.1⟩

/-- C8: the read operations are total — with no obtainable snapshot, or with the
queried id absent from the snapshot, `deployment_subgraphs` yields the empty list
and `subgraph` yields `none`; no error is possible. -/
theorem C8_reads_total_absence (sink : SinkState) (d : DeploymentId) (s : SubgraphId)
    (hd : ∀ inputs, sink.latest = some inputs →
        inputs.deployment_to_subgraphs.get? d = none)
    (hs : ∀ inputs, sink.latest = some inputs →
        inputs.subgraph_id_to_subgraph.get? s = none) :
    deployment_subgraphs sink d = [] ∧ subgraph sink s = none := by
  obtain ⟨latest⟩ := sink
  cases latest with
  | none => exact ⟨rfl, rfl⟩
  | some inputs =>
    refine ⟨?_, hs inputs rfl⟩
    show (inputs.deployment_to_subgraphs.get? d).getD [] = []
    rw [hd inputs rfl]
    rfl

/-- C8 witness: on the example snapshot, reading the absent DeploymentId 99 yields
`[]` and the absent SubgraphId 99 yields `none`. -/
theorem C8_witness :
    deployment_subgraphs exSink ⟨99⟩ = [] ∧ subgraph exSink ⟨99⟩ = none :=
  C8_reads_total_absence exSink ⟨99⟩ ⟨99⟩
    (fun inputs h => by
      have hi : some exInputs = some inputs := h
      injection hi with hi2
      rw [← hi2]; decide)
    (fun inputs h => by
      have hi : some exInputs = some inputs := h
      injection hi with hi2
      rw [← hi2]; decide)

/-- Left-biased `Option.or` on a `some`. -/
theorem option_some_or {α : Type} (a : α) (o : Option α) : (some a).or o = some a := rfl

/-- C2 counterexample: in page set `exRespDup` two records share DeploymentId 7.
SubgraphId 1 is a key of `subgraph_id_to_subgraph`, yet the list stored under its
deployment (id 7) — indeed every stored list — contains no subgraph with id 1,
because the second record overwrote the deployment entry. -/
theorem C2_counterexample :
    ((parse_subgraphs exRespDup).get? ⟨1⟩).isSome = true
    ∧ (((parse_deployment_subgraphs exRespDup).get? exRec1.id).getD []).all
        (fun sg => !(decide (sg.id = ⟨1⟩))) = true
    ∧ ((parse_deployment_subgraphs exRespDup).entries.all
        (fun p => p.2.all (fun sg => !(decide (sg.id = ⟨1⟩))))) = true := by
  refine ⟨by decide, by decide, by decide⟩

/-- C2 (amended: for every non-empty page set whose records have pairwise-distinct
DeploymentIds): every SubgraphId key of `subgraph_id_to_subgraph` appears as the id
of a subgraph in the list stored under its record's deployment, and every subgraph
of a stored deployment list has its id as a key of `subgraph_id_to_subgraph`. -/
theorem C2_cross_map_consistency (resp : List SubgraphDeployment) (hne : resp ≠ [])
    (hnodup : (resp.map SubgraphDeployment.id).Nodup) :
    (∀ S v, (parse_subgraphs resp).get? S = some v →
        ∃ D l, (parse_deployment_subgraphs resp).get? D = some l ∧
          ∃ sg ∈ l, sg.id = S)
    ∧ (∀ D l sg, (parse_deployment_subgraphs resp).get? D = some l → sg ∈ l →
        ((parse_subgraphs resp).get? sg.id).isSome = true) := by
  constructor
  · intro S v hv
    rw [parse_subgraphs_get?] at hv
    have hvid : v.id = S :=
      of_decide_eq_true
        (@List.find?_some Subgraph (fun sg => decide (sg.id = S)) v
          (flatSubgraphs resp).reverse hv)
    have hvmem : v ∈ flatSubgraphs resp :=
      List.mem_reverse.mp
        (@List.mem_of_find?_eq_some Subgraph (fun sg => decide (sg.id = S)) v
          (flatSubgraphs resp).reverse hv)
    rw [flatSubgraphs] at hvmem
    obtain ⟨l, hl, hvl⟩ := List.mem_flatten.mp hvmem
    obtain ⟨d, hd, rfl⟩ := List.mem_map.mp hl
    refine ⟨d.id, subgraphsOf d, ?_, v, hvl, hvid⟩
    rw [parse_deployment_subgraphs_get?, find?_reverse_id_of_nodup resp hnodup d hd]
    rfl
  · intro D l sg hDl hsgl
    rw [parse_deployment_subgraphs_get?] at hDl
    cases hf : resp.reverse.find? (fun d => d.id = D) with
    | none =>
      rw [hf] at hDl
      exact absurd hDl (by simp)
    | some d =>
      rw [hf] at hDl
      have hld : subgraphsOf d = l := by simpa using hDl
      have hdmem : d ∈ resp :=
        List.mem_reverse.mp
          (@List.mem_of_find?_eq_some SubgraphDeployment (fun r => decide (r.id = D)) d
            resp.reverse hf)
      rw [parse_subgraphs_get?]
      exact find?_reverse_isSome_of_mem _ _ sg
        (mem_flatSubgraphs resp d hdmem sg (hld ▸ hsgl)) (decide_eq_true rfl)

/-- C2 witness: on the distinct-id page set, SubgraphId 1 (a key via `exSub1`)
appears under some stored deployment list. -/
theorem C2_witness :
    ∃ D l, (parse_deployment_subgraphs exRespDistinct).get? D = some l
      ∧ ∃ sg ∈ l, sg.id = (⟨1⟩ : SubgraphId) :=
  (C2_cross_map_consistency exRespDistinct (by decide) (by decide)).1 ⟨1⟩ exSub1 (by decide)

/-- C7 counterexample: in page set `exRespDup`, record `exRec1` is present, yet the
list stored under its DeploymentId is not the subgraph list of its own versions —
the later record with the same DeploymentId replaced it. -/
theorem C7_counterexample :
    exRec1 ∈ exRespDup
    ∧ (parse_deployment_subgraphs exRespDup).get? exRec1.id
        ≠ some (exRec1.versions.map (fun version => cloneSubgraph version.subgraph)) := by
  refine ⟨by decide, by decide⟩

/-- C7 (amended: for page sets whose records have pairwise-distinct DeploymentIds):
the list stored under each record's DeploymentId is exactly the subgraphs of that
record's versions, in version order. -/
theorem C7_deployment_list_exact (resp : List SubgraphDeployment)
    (hnodup : (resp.map SubgraphDeployment.id).Nodup)
    (r : SubgraphDeployment) (hr : r ∈ resp) :
    (parse_deployment_subgraphs resp).get? r.id
      = some (r.versions.map (fun version => cloneSubgraph version.subgraph)) := by
  rw [parse_deployment_subgraphs_get?, find?_reverse_id_of_nodup resp hnodup r hr]
  rfl

/-- C7 witness: on the distinct-id page set, deployment 7 stores exactly the
subgraphs of `exRec1`'s versions. -/
theorem C7_witness :
    (parse_deployment_subgraphs exRespDistinct).get? exRec1.id
      = some (exRec1.versions.map (fun version => cloneSubgraph version.subgraph)) :=
  C7_deployment_list_exact exRespDistinct (by decide) exRec1 (by decide)

/-- C9: when exactly the two records `r1` (earlier) and `r2` (later) of the page
set carry the same DeploymentId, that id maps to the later record's subgraph list
only; any subgraph of the earlier record not also in the later's list is absent
from the stored list; while `subgraph_id_to_subgraph` still keys the subgraph ids
of the versions of both records. -/
theorem C9_duplicate_deployment (pre mid post : List SubgraphDeployment)
    (r1 r2 : SubgraphDeployment) (heq : r1.id = r2.id)
    (hpre : ∀ r ∈ pre, r.id ≠ r1.id)
    (hmid : ∀ r ∈ mid, r.id ≠ r1.id)
    (hpost : ∀ r ∈ post, r.id ≠ r1.id) :
    (parse_deployment_subgraphs (pre ++ r1 :: mid ++ r2 :: post)).get? r1.id
        = some (subgraphsOf r2)
    ∧ (∀ sg ∈ subgraphsOf r1, sg ∉ subgraphsOf r2 →
        sg ∉ ((parse_deployment_subgraphs (pre ++ r1 :: mid ++ r2 :: post)).get?
          r1.id).getD [])
    ∧ (∀ version ∈ r1.versions ++ r2.versions,
        ((parse_subgraphs (pre ++ r1 :: mid ++ r2 :: post)).get?
          version.subgraph.id).isSome = true) := by
  have h1 : pre.reverse.find? (fun r => r.id = r1.id) = none :=
    find?_id_eq_none _ _ (fun r hr => hpre r (List.mem_reverse.mp hr))
  have h2 : mid.reverse.find? (fun r => r.id = r1.id) = none :=
    find?_id_eq_none _ _ (fun r hr => hmid r (List.mem_reverse.mp hr))
  have h3 : post.reverse.find? (fun r => r.id = r1.id) = none :=
    find?_id_eq_none _ _ (fun r hr => hpost r (List.mem_reverse.mp hr))
  have h4 : List.find? (fun r => r.id = r1.id) [r2] = some r2 := by
    have hd : decide (r2.id = r1.id) = true := decide_eq_true heq.symm
    simp [List.find?_cons, hd]
  have hfind : (pre ++ r1 :: mid ++ r2 :: post).reverse.find? (fun r => r.id = r1.id)
      = some r2 := by
    rw [List.reverse_append, List.reverse_cons, List.reverse_append, List.reverse_cons]
    rw [List.find?_append, List.find?_append, List.find?_append, List.find?_append]
    rw [h1, h2, h3, h4, Option.or_none, Option.none_or, Option.none_or, option_some_or]
  have ha : (parse_deployment_subgraphs (pre ++ r1 :: mid ++ r2 :: post)).get? r1.id
      = some (subgraphsOf r2) := by
    rw [parse_deployment_subgraphs_get?, hfind]
    rfl
  refine ⟨ha, ?_, ?_⟩
  · intro sg hsg1 hnot
    rw [ha]
    exact hnot
  · intro version hv
    rw [parse_subgraphs_get?]
    rcases List.mem_append.mp hv with hv1 | hv2
    · refine find?_reverse_isSome_of_mem _ _ (cloneSubgraph version.subgraph)
        (mem_flatSubgraphs _ r1 ?_ _
          (List.mem_map_of_mem (fun version => cloneSubgraph version.subgraph) hv1))
        (decide_eq_true rfl)
      exact List.mem_append.mpr
        (Or.inl (List.mem_append.mpr (Or.inr (List.mem_cons_self r1 mid))))
    · refine find?_reverse_isSome_of_mem _ _ (cloneSubgraph version.subgraph)
        (mem_flatSubgraphs _ r2 ?_ _
          (List.mem_map_of_mem (fun version => cloneSubgraph version.subgraph) hv2))
        (decide_eq_true rfl)
      exact List.mem_append.mpr (Or.inr (List.mem_cons_self r2 post))

/-- C9 witness: with records `exRec1` and `exRec2` sharing DeploymentId 7,
deployment 7 stores exactly `exRec2`'s subgraphs, while SubgraphId 1 (from the
overwritten `exRec1`) is still a key of `subgraph_id_to_subgraph`. -/
theorem C9_witness :
    (parse_deployment_subgraphs ([] ++ exRec1 :: [] ++ exRec2 :: [])).get? exRec1.id
        = some (subgraphsOf exRec2)
    ∧ ((parse_subgraphs ([] ++ exRec1 :: [] ++ exRec2 :: [])).get?
        (⟨exSub1⟩ : SubgraphVersion).subgraph.id).isSome = true :=
  ⟨(C9_duplicate_deployment [] [] [] exRec1 exRec2 rfl (by simp) (by simp) (by simp)).1,
    (C9_duplicate_deployment [] [] [] exRec1 exRec2 rfl (by simp) (by simp) (by simp)).2.2
      ⟨exSub1⟩ (by decide)⟩

/-- C4: a SubgraphId occurring in more than one version across the page set does
not fail the build — `subgraph_id_to_subgraph` holds an entry for it, and that
entry is the subgraph of the last occurrence in iteration order (records in page
order, versions in version order): last write wins. -/
theorem C4_last_write_wins (resp : List SubgraphDeployment) (S : SubgraphId)
    (hdup : 1 < ((flatSubgraphs resp).filter (fun sg => sg.id = S)).length) :
    (parse_subgraphs resp).get? S
        = ((flatSubgraphs resp).filter (fun sg => sg.id = S)).getLast?
    ∧ ((parse_subgraphs resp).get? S).isSome = true := by
  constructor
  · rw [parse_subgraphs_get?, getLast?_filter_eq_find?_reverse]
  · rw [parse_subgraphs_get?]
    obtain ⟨x, hx⟩ := List.exists_mem_of_length_pos (lt_trans Nat.zero_lt_one hdup)
    have hx2 := List.mem_filter.mp hx
    exact find?_reverse_isSome_of_mem _ _ x hx2.1 hx2.2

/-- C4 witness: SubgraphId 1 occurs in two records of `exRespDupSub`; the stored
entry is the last occurrence and the build produced an entry. -/
theorem C4_witness :
    (parse_subgraphs exRespDupSub).get? ⟨1⟩
        = ((flatSubgraphs exRespDupSub).filter (fun sg => sg.id = ⟨1⟩)).getLast?
    ∧ ((parse_subgraphs exRespDupSub).get? ⟨1⟩).isSome = true :=
  C4_last_write_wins exRespDupSub ⟨1⟩ (by decide)

/-- C10 counterexample: in `exRespEmptyDup` the empty-versions record for
deployment 7 is followed by a non-empty record with the same DeploymentId, so the
built map does NOT store the empty list under that id. -/
theorem C10_counterexample :
    exRecEmpty ∈ exRespEmptyDup ∧ exRecEmpty.versions = []
    ∧ (parse_deployment_subgraphs exRespEmptyDup).get? exRecEmpty.id ≠ some [] := by
  refine ⟨by decide, rfl, by decide⟩

/-- C10 (amended: for page sets whose records have pairwise-distinct
DeploymentIds): a record with no versions is stored as the empty list under its
DeploymentId, contributes no entry to `subgraph_id_to_subgraph` (the map is the
one built without the record), and reading its DeploymentId from the published
snapshot yields `[]`, exactly as for a DeploymentId absent from the snapshot. -/
theorem C10_empty_versions (pre post : List SubgraphDeployment) (r : SubgraphDeployment)
    (hnodup : ((pre ++ r :: post).map SubgraphDeployment.id).Nodup)
    (hv : r.versions = []) :
    (parse_deployment_subgraphs (pre ++ r :: post)).get? r.id = some []
    ∧ parse_subgraphs (pre ++ r :: post) = parse_subgraphs (pre ++ post)
    ∧ deployment_subgraphs (snapshotOf (pre ++ r :: post)) r.id = []
    ∧ (∀ D, (parse_deployment_subgraphs (pre ++ r :: post)).get? D = none →
        deployment_subgraphs (snapshotOf (pre ++ r :: post)) D
          = deployment_subgraphs (snapshotOf (pre ++ r :: post)) r.id) := by
  have hmem : r ∈ pre ++ r :: post := List.mem_append.mpr (Or.inr (List.mem_cons_self r post))
  have ha : (parse_deployment_subgraphs (pre ++ r :: post)).get? r.id = some [] := by
    rw [parse_deployment_subgraphs_get?, find?_reverse_id_of_nodup _ hnodup r hmem]
    show some (subgraphsOf r) = some []
    rw [subgraphsOf, hv]
    rfl
  have hc : deployment_subgraphs (snapshotOf (pre ++ r :: post)) r.id = [] := by
    show ((parse_deployment_subgraphs (pre ++ r :: post)).get? r.id).getD [] = []
    rw [ha]
    rfl
  refine ⟨ha, parse_subgraphs_drop_empty pre post r hv, hc, ?_⟩
  intro D hD
  show ((parse_deployment_subgraphs (pre ++ r :: post)).get? D).getD [] = _
  rw [hD, hc]
  rfl

/-- C10 witness: on the distinct-id page set with the empty-versions record for
deployment 8, the map stores `some []` under id 8 and the read yields `[]`. -/
theorem C10_witness :
    (parse_deployment_subgraphs ([exRec1] ++ exRecEmpty8 :: [])).get? exRecEmpty8.id
        = some []
    ∧ deployment_subgraphs (snapshotOf ([exRec1] ++ exRecEmpty8 :: [])) exRecEmpty8.id
        = [] :=
  ⟨(C10_empty_versions [exRec1] [] exRecEmpty8 (by decide) rfl).1,
    (C10_empty_versions [exRec1] [] exRecEmpty8 (by decide) rfl).2.2.1⟩
